import Mathlib

/-!
Verification of the nonlinear-manifold learning notebook (`nl_manifolds`).

The numeric core of the notebook is embedded shallowly:

* `polynomial_form` / `polyMatrix` embed `polynomial_form` together with
  `np.concatenate(..., axis=0)`;
* `gammaPOD` embeds the POD reconstruction cell;
* `closedFormXi` embeds the one-shot nonlinear-manifold fit cell;
* `mamStep` and `mamLoopAux`/`mamLoop` embed one outer iteration and the
  outer `for niter in range(max_iter)` loop of the alternating-minimization
  cell.  The external library calls `np.linalg.svd` and
  `scipy.optimize.least_squares` are abstracted as oracle parameters
  (`svdO`, `lsqO`); properties of the SVD output are taken as hypotheses
  (`isSVD`).

Floating-point numbers are modelled by an arbitrary linear ordered field
(instantiated at `ℚ` in concrete witnesses), i.e. the claims are settled in
exact real arithmetic.
-/

set_option autoImplicit false

namespace NLManifolds

open Matrix Finset

variable {K : Type} [LinearOrderedField K]

/-- Embeds `polynomial_form(x)`, i.e. the list comprehension
`[x**degree for degree in range(2, p+1)]`, as an indexed family of the
`p - 1` element-wise power matrices (block `d` holds the `(d+2)`-th powers). -/
def polynomial_form {r k : ℕ} (p : ℕ) (x : Matrix (Fin r) (Fin k) K) :
    Fin (p - 1) → Matrix (Fin r) (Fin k) K :=
  fun d => fun i j => x i j ^ ((d : ℕ) + 2)

/-- Embeds `np.concatenate(B, axis=0)` for a family of `m` matrices of equal
shape `r × c`: row `i` of the stack is row `i % r` of block `i / r`. -/
def vstackBlocks {r c m : ℕ} (B : Fin m → Matrix (Fin r) (Fin c) K) :
    Matrix (Fin (m * r)) (Fin c) K :=
  fun i j =>
    have h : (i : ℕ) < m * r := i.isLt
    have hr : 0 < r := by
      rcases Nat.eq_zero_or_pos r with h0 | h0
      · subst h0; simp at h
      · exact h0
    B ⟨(i : ℕ) / r, Nat.div_lt_of_lt_mul (Nat.mul_comm m r ▸ h)⟩
      ⟨(i : ℕ) % r, Nat.mod_lt _ hr⟩ j

/-- Embeds `Poly = np.concatenate(polynomial_form(x), axis=0)`. -/
def polyMatrix {r k : ℕ} (p : ℕ) (x : Matrix (Fin r) (Fin k) K) :
    Matrix (Fin ((p - 1) * r)) (Fin k) K :=
  vstackBlocks (polynomial_form p x)

/-- Embeds `g(x)` for a single reduced-state vector, i.e.
`np.concatenate(polynomial_form(x), axis=0)` applied to a length-`r` vector. -/
def gVec {r : ℕ} (p : ℕ) (x : Fin r → K) : Fin ((p - 1) * r) → K :=
  fun i => polyMatrix p (fun a (_ : Fin 1) => x a) i 0

/-- Embeds `Sref = np.array([sref,] * k).T`: the reference state broadcast
to `k` columns. -/
def srefMat {n : ℕ} (k : ℕ) (sref : Fin n → K) : Matrix (Fin n) (Fin k) K :=
  fun i _ => sref i

/-- Squared Frobenius norm, `np.linalg.norm(A, 'fro')**2`. -/
def frobSq {a b : ℕ} (A : Matrix (Fin a) (Fin b) K) : K :=
  ∑ i, ∑ j, A i j ^ 2

/-- Frobenius (trace) inner product of two matrices. -/
def matInner {a b : ℕ} (A B : Matrix (Fin a) (Fin b) K) : K :=
  ∑ i, ∑ j, A i j * B i j

/-- Embeds `np.linalg.inv` on its domain of definition: the adjugate
formula, which is the true inverse exactly when `det A ≠ 0`.  On singular
input `np.linalg.inv` raises `LinAlgError` (it does not return a value), so
statements about runs that reach this operation carry a `det ≠ 0`
hypothesis; `npInv`'s value on singular input (the zero matrix) is never
relied upon. -/
def npInv {a : ℕ} (A : Matrix (Fin a) (Fin a) K) : Matrix (Fin a) (Fin a) K :=
  (A.det)⁻¹ • A.adjugate

/-- Embeds the POD reconstruction cell:
`Shat = Vr.T @ (S - Sref); Gamma_POD = Sref + Vr @ Shat`. -/
def gammaPOD {n k r : ℕ} (S : Matrix (Fin n) (Fin k) K) (sref : Fin n → K)
    (Vr : Matrix (Fin n) (Fin r) K) : Matrix (Fin n) (Fin k) K :=
  srefMat k sref + Vr * ((Vr)ᵀ * (S - srefMat k sref))

/-- Flipping the sign of each column `j` of `V` by `ε j`. -/
def colFlip {n r : ℕ} (V : Matrix (Fin n) (Fin r) K) (ε : Fin r → K) :
    Matrix (Fin n) (Fin r) K :=
  fun i j => V i j * ε j

/-- Embeds the one-shot nonlinear-manifold fit cell:
`Proj_error = S - Sref - Vr @ Shat; Poly = np.concatenate(polynomial_form(Shat));
Xi = Vbar.T @ Proj_error @ Poly.T @ inv(Poly @ Poly.T + gamma * identity((p-1)*r))`. -/
def closedFormXi {n k r q : ℕ} (p : ℕ) (γ : K)
    (S : Matrix (Fin n) (Fin k) K) (sref : Fin n → K)
    (Vr : Matrix (Fin n) (Fin r) K) (Vbar : Matrix (Fin n) (Fin q) K)
    (Shat : Matrix (Fin r) (Fin k) K) :
    Matrix (Fin q) (Fin ((p - 1) * r)) K :=
  (Vbar)ᵀ * (S - srefMat k sref - Vr * Shat) * (polyMatrix p Shat)ᵀ *
    npInv (polyMatrix p Shat * (polyMatrix p Shat)ᵀ +
      γ • (1 : Matrix (Fin ((p - 1) * r)) (Fin ((p - 1) * r)) K))

/-- The ridge normal-equations formula for the coefficient matrix, as a
function of an arbitrary feature matrix `Poly` (this is the shape shared by
the one-shot fit and by step 2 of the alternating loop). -/
def stepBXi {n k r q : ℕ} (p : ℕ) (γ : K)
    (S : Matrix (Fin n) (Fin k) K) (sref : Fin n → K)
    (Vr : Matrix (Fin n) (Fin r) K) (Vbar : Matrix (Fin n) (Fin q) K)
    (Shat : Matrix (Fin r) (Fin k) K)
    (Poly : Matrix (Fin ((p - 1) * r)) (Fin k) K) :
    Matrix (Fin q) (Fin ((p - 1) * r)) K :=
  (Vbar)ᵀ * (S - srefMat k sref - Vr * Shat) * (Poly)ᵀ *
    npInv (Poly * (Poly)ᵀ +
      γ • (1 : Matrix (Fin ((p - 1) * r)) (Fin ((p - 1) * r)) K))

/-- The triple returned by `np.linalg.svd(A, full_matrices=False)` for an
`n × m` input with `n ≥ m`: left factor `U` (`n × m`), singular values
`sv`, and the (already transposed) right factor `Vh` (`m × m`). -/
structure SVDResult (n m : ℕ) (K : Type) where
  U : Matrix (Fin n) (Fin m) K
  sv : Fin m → K
  Vh : Matrix (Fin m) (Fin m) K

/-- The defining properties of a (thin) singular value decomposition:
orthonormal columns of `U`, orthogonal `Vh`, nonnegative singular values,
and the factorization itself. -/
def isSVD {n m : ℕ} (A : Matrix (Fin n) (Fin m) K) (res : SVDResult n m K) : Prop :=
  (res.U)ᵀ * res.U = 1 ∧ (res.Vh)ᵀ * res.Vh = 1 ∧ (∀ i, 0 ≤ res.sv i) ∧
    A = res.U * Matrix.diagonal res.sv * res.Vh

/-- The mutable state threaded through the outer loop of the
alternating-minimization cell: the five arrays `Vr`, `Vbar`, `Xi`, `Shat`,
`Poly` updated in place by each iteration. -/
structure MAMState (n k r q p : ℕ) (K : Type) where
  Vr : Matrix (Fin n) (Fin r) K
  Vbar : Matrix (Fin n) (Fin q) K
  Xi : Matrix (Fin q) (Fin ((p - 1) * r)) K
  Shat : Matrix (Fin r) (Fin k) K
  Poly : Matrix (Fin ((p - 1) * r)) (Fin k) K

/-- Embeds `np.concatenate([Shat, Xi @ Poly])`: the `(r+q) × k` target of the
Procrustes step, `Shat` stacked on top of `Xi @ Poly`. -/
def targetT {n k r q p : ℕ} (s : MAMState n k r q p K) :
    Matrix (Fin (r + q)) (Fin k) K :=
  fun i j => Fin.addCases (fun a => s.Shat a j) (fun b => (s.Xi * s.Poly) b j) i

/-- Embeds `A[:, :a]` for an `n × (a+b)` matrix. -/
def colsLeft {n a b : ℕ} (A : Matrix (Fin n) (Fin (a + b)) K) :
    Matrix (Fin n) (Fin a) K :=
  fun i j => A i (Fin.castAdd b j)

/-- Embeds `A[:, a:a+b]` for an `n × (a+b)` matrix. -/
def colsRight {n a b : ℕ} (A : Matrix (Fin n) (Fin (a + b)) K) :
    Matrix (Fin n) (Fin b) K :=
  fun i j => A i (Fin.natAdd a j)

/-- The matrix whose singular value decomposition step 1 computes:
`(S - Sref) @ np.concatenate([Shat, Xi @ Poly]).T`. -/
def procInput {n k r q p : ℕ} (S : Matrix (Fin n) (Fin k) K) (sref : Fin n → K)
    (s : MAMState n k r q p K) : Matrix (Fin n) (Fin (r + q)) K :=
  (S - srefMat k sref) * (targetT s)ᵀ

/-- `Omega = Um @ Vm` as computed by step 1 from the SVD oracle's output. -/
def procOmega {n k r q p : ℕ}
    (svdO : Matrix (Fin n) (Fin (r + q)) K → SVDResult n (r + q) K)
    (S : Matrix (Fin n) (Fin k) K) (sref : Fin n → K)
    (s : MAMState n k r q p K) : Matrix (Fin n) (Fin (r + q)) K :=
  (svdO (procInput S sref s)).U * (svdO (procInput S sref s)).Vh

/-- Embeds `representation_learning_obj(x)` for snapshot `j`:
`S[:, snapshot] - sref - Vr @ x - Vbar @ Xi @ np.concatenate(polynomial_form(x))`. -/
def representation_learning_obj {n k r q : ℕ} (p : ℕ)
    (S : Matrix (Fin n) (Fin k) K) (sref : Fin n → K)
    (Vr : Matrix (Fin n) (Fin r) K) (Vbar : Matrix (Fin n) (Fin q) K)
    (Xi : Matrix (Fin q) (Fin ((p - 1) * r)) K) (j : Fin k) (x : Fin r → K) :
    Fin n → K :=
  fun i => S i j - sref i - Matrix.mulVec Vr x i -
    Matrix.mulVec (Vbar * Xi) (gVec p x) i

/-- Embeds one outer iteration of the alternating-minimization loop:
step 1 (orthogonal Procrustes via the SVD oracle and `Omega = Um @ Vm`,
split into `Vr` and `Vbar`), step 2 (ridge linear regression for `Xi`
with the just-updated bases, the old `Shat` and the old `Poly`), and
step 3 (per-snapshot nonlinear least squares via the oracle `lsqO`,
initialized at the old columns of `Shat`, after which `Poly` is recomputed
from the new `Shat`). -/
def mamStep {n k r q p : ℕ} (γ : K)
    (S : Matrix (Fin n) (Fin k) K) (sref : Fin n → K)
    (svdO : Matrix (Fin n) (Fin (r + q)) K → SVDResult n (r + q) K)
    (lsqO : ((Fin r → K) → (Fin n → K)) → (Fin r → K) → (Fin r → K))
    (s : MAMState n k r q p K) : MAMState n k r q p K :=
  -- step 1 - orthogonal Procrustes (update basis vectors)
  let Omega := procOmega svdO S sref s
  let Vr' := colsLeft Omega
  let Vbar' := colsRight Omega
  -- step 2 - linear regression (update coefficient matrix)
  let Proj_error := S - srefMat k sref - Vr' * s.Shat
  let rhs := npInv (s.Poly * (s.Poly)ᵀ +
    γ • (1 : Matrix (Fin ((p - 1) * r)) (Fin ((p - 1) * r)) K))
  let Xi' := (Vbar')ᵀ * Proj_error * (s.Poly)ᵀ * rhs
  -- step 3 - nonlinear regression (update reduced state representation)
  let Shat' : Matrix (Fin r) (Fin k) K := fun i j =>
    lsqO (representation_learning_obj p S sref Vr' Vbar' Xi' j)
      (fun a => s.Shat a j) i
  let Poly' := polyMatrix p Shat'
  ⟨Vr', Vbar', Xi', Shat', Poly'⟩

/-- The convergence energy of a state:
`norm(Vr @ Shat + Vbar @ Xi @ Poly, 'fro')**2 / norm(S - Sref, 'fro')**2`. -/
def energyOf {n k r q p : ℕ} (S : Matrix (Fin n) (Fin k) K) (sref : Fin n → K)
    (s : MAMState n k r q p K) : K :=
  frobSq (s.Vr * s.Shat + s.Vbar * s.Xi * s.Poly) / frobSq (S - srefMat k sref)

/-- Outcome of the outer loop: final state, whether the loop left via the
convergence `break` (equivalently, whether the convergence message was
printed), and the number of outer iterations executed. -/
structure MAMResult (n k r q p : ℕ) (K : Type) where
  state : MAMState n k r q p K
  converged : Bool
  iters : ℕ

/-- Embeds `for niter in range(fuel): ...` with accumulator `nrg_old` and
count `done` of iterations already executed: each pass runs one `mamStep`,
evaluates the energy, breaks when `abs(energy - nrg_old) < tol`, and
otherwise stores the energy and continues. -/
def mamLoopAux {n k r q p : ℕ} (tol γ : K)
    (S : Matrix (Fin n) (Fin k) K) (sref : Fin n → K)
    (svdO : Matrix (Fin n) (Fin (r + q)) K → SVDResult n (r + q) K)
    (lsqO : ((Fin r → K) → (Fin n → K)) → (Fin r → K) → (Fin r → K)) :
    ℕ → K → ℕ → MAMState n k r q p K → MAMResult n k r q p K
  | 0, _, done, s => ⟨s, false, done⟩
  | fuel + 1, nrg_old, done, s =>
    let s' := mamStep γ S sref svdO lsqO s
    let e := energyOf S sref s'
    if |e - nrg_old| < tol then ⟨s', true, done + 1⟩
    else mamLoopAux tol γ S sref svdO lsqO fuel e (done + 1) s'

/-- Embeds the whole alternating-minimization cell after initialization:
`nrg_old = 0` followed by `for niter in range(max_iter)`. -/
def mamLoop {n k r q p : ℕ} (tol γ : K)
    (S : Matrix (Fin n) (Fin k) K) (sref : Fin n → K)
    (svdO : Matrix (Fin n) (Fin (r + q)) K → SVDResult n (r + q) K)
    (lsqO : ((Fin r → K) → (Fin n → K)) → (Fin r → K) → (Fin r → K))
    (max_iter : ℕ) (s0 : MAMState n k r q p K) : MAMResult n k r q p K :=
  mamLoopAux tol γ S sref svdO lsqO max_iter 0 0 s0

/-- The energy measured at the end of outer iteration `i` (with the
convention `energySeq 0 = 0`, the initialization of `nrg_old`). -/
def energySeq {n k r q p : ℕ} (γ : K)
    (S : Matrix (Fin n) (Fin k) K) (sref : Fin n → K)
    (svdO : Matrix (Fin n) (Fin (r + q)) K → SVDResult n (r + q) K)
    (lsqO : ((Fin r → K) → (Fin n → K)) → (Fin r → K) → (Fin r → K))
    (s0 : MAMState n k r q p K) : ℕ → K
  | 0 => 0
  | i + 1 => energyOf S sref ((mamStep γ S sref svdO lsqO)^[i + 1] s0)

/-- The convergence test quantity of outer iteration `i ≥ 1`:
`abs(energy - nrg_old)` where `energy` is measured at the end of iteration
`i` and `nrg_old` is the value stored at the end of iteration `i - 1`
(or the initial `0`). -/
def energyDiff {n k r q p : ℕ} (γ : K)
    (S : Matrix (Fin n) (Fin k) K) (sref : Fin n → K)
    (svdO : Matrix (Fin n) (Fin (r + q)) K → SVDResult n (r + q) K)
    (lsqO : ((Fin r → K) → (Fin n → K)) → (Fin r → K) → (Fin r → K))
    (s0 : MAMState n k r q p K) (i : ℕ) : K :=
  |energySeq γ S sref svdO lsqO s0 i - energySeq γ S sref svdO lsqO s0 (i - 1)|

/-- Technical device for the loop invariant: the loop resumed after `m`
completed iterations, with the accumulator holding the energy measured at
the end of iteration `m`.  `loopRes fuel 0` is `mamLoop` with budget `fuel`. -/
def loopRes {n k r q p : ℕ} (tol γ : K)
    (S : Matrix (Fin n) (Fin k) K) (sref : Fin n → K)
    (svdO : Matrix (Fin n) (Fin (r + q)) K → SVDResult n (r + q) K)
    (lsqO : ((Fin r → K) → (Fin n → K)) → (Fin r → K) → (Fin r → K))
    (s0 : MAMState n k r q p K) (fuel m : ℕ) : MAMResult n k r q p K :=
  mamLoopAux tol γ S sref svdO lsqO fuel (energySeq γ S sref svdO lsqO s0 m) m
    ((mamStep γ S sref svdO lsqO)^[m] s0)

/-! Concrete rational instances (smallest dimensions: `n = k = r = 1`,
`q = 0`, `p = 2`) used by the witness and counterexample theorems. -/

namespace Wit

def S0 : Matrix (Fin 1) (Fin 1) ℚ := 0

def sref0 : Fin 1 → ℚ := fun _ => 0

def svdO0 : Matrix (Fin 1) (Fin (1 + 0)) ℚ → SVDResult 1 (1 + 0) ℚ :=
  fun _ => ⟨1, fun _ => 0, 1⟩

def lsqO0 : ((Fin 1 → ℚ) → (Fin 1 → ℚ)) → (Fin 1 → ℚ) → (Fin 1 → ℚ) :=
  fun _ x => x

def st0 : MAMState 1 1 1 0 2 ℚ := ⟨0, 0, 0, 0, 0⟩

def x8 : Matrix (Fin 1) (Fin 1) ℚ := fun _ _ => 2

/-- Data matrix for the C7 instance: the single sample `[1]` (so the
centered data is nonzero and every operation of the first iteration is
well-defined in the real code too). -/
def S7 : Matrix (Fin 1) (Fin 1) ℚ := fun _ _ => 1

def sref7 : Fin 1 → ℚ := fun _ => 0

/-- State for the C7 instance (`n = k = r = 1`, `q = 0`, `p = 2`):
`Vr = [[1]]`, empty `Vbar` and `Xi`, `Shat = [[1]]`, and the consistent
`Poly = Shat² = [[1]]`.  With ridge weight `γ = 1` the step-2 matrix is
`Poly·Polyᵀ + γ·I = [[2]]`, nonsingular, so `np.linalg.inv` succeeds and
the real iteration runs to completion on this input. -/
def st7 : MAMState 1 1 1 0 2 ℚ := ⟨fun _ _ => 1, 0, 0, fun _ _ => 1, fun _ _ => 1⟩

def V9 : Matrix (Fin 1) (Fin 1) ℚ := fun _ _ => 1

def eps9 : Fin 1 → ℚ := fun _ => -1

end Wit

section FrobeniusLemmas

variable {a b m n : ℕ}

lemma frobSq_eq_trace (A : Matrix (Fin a) (Fin b) K) :
    frobSq A = Matrix.trace ((A)ᵀ * A) := by
  simp only [frobSq, Matrix.trace, Matrix.diag, Matrix.mul_apply,
    Matrix.transpose_apply, sq]
  exact Finset.sum_comm

lemma matInner_eq_trace (A B : Matrix (Fin a) (Fin b) K) :
    matInner A B = Matrix.trace ((A)ᵀ * B) := by
  simp only [matInner, Matrix.trace, Matrix.diag, Matrix.mul_apply,
    Matrix.transpose_apply]
  exact Finset.sum_comm

lemma frobSq_sub (A B : Matrix (Fin a) (Fin b) K) :
    frobSq (A - B) = frobSq A - 2 * matInner A B + frobSq B := by
  have h : ∀ i j, (A i j - B i j) ^ 2 =
      A i j ^ 2 - 2 * (A i j * B i j) + B i j ^ 2 := by intros; ring
  simp only [frobSq, matInner, Matrix.sub_apply, h, Finset.sum_add_distrib,
    Finset.sum_sub_distrib, Finset.mul_sum]

lemma frobSq_orth_mul (Ω : Matrix (Fin a) (Fin m) K) (T : Matrix (Fin m) (Fin b) K)
    (h : (Ω)ᵀ * Ω = 1) : frobSq (Ω * T) = frobSq T := by
  rw [frobSq_eq_trace, frobSq_eq_trace, Matrix.transpose_mul, Matrix.mul_assoc,
    ← Matrix.mul_assoc (Ω)ᵀ Ω T, h, Matrix.one_mul]

lemma matInner_mul_right (C : Matrix (Fin a) (Fin b) K)
    (Ω : Matrix (Fin a) (Fin m) K) (T : Matrix (Fin m) (Fin b) K) :
    matInner C (Ω * T) = matInner (C * (T)ᵀ) Ω := by
  rw [matInner_eq_trace, matInner_eq_trace, Matrix.transpose_mul,
    Matrix.transpose_transpose, ← Matrix.mul_assoc, Matrix.trace_mul_comm,
    ← Matrix.mul_assoc]

lemma trace_diagonal_mul (σ : Fin m → K) (Z : Matrix (Fin m) (Fin m) K) :
    Matrix.trace (Matrix.diagonal σ * Z) = ∑ i, σ i * Z i i := by
  simp [Matrix.trace, Matrix.diag, Matrix.diagonal_mul]

/-- A matrix with orthonormal columns has unit-norm columns. -/
lemma col_sq_sum_eq_one (U : Matrix (Fin n) (Fin m) K)
    (hU : (U)ᵀ * U = 1) (i : Fin m) : ∑ a, U a i ^ 2 = 1 := by
  have h := congrArg (fun M => M i i) hU
  simpa [Matrix.mul_apply, Matrix.transpose_apply, Matrix.one_apply, sq] using h

/-- Diagonal entries of `Uᵀ * W` are at most `1` when both `U` and `W` have
orthonormal columns (Cauchy-Schwarz on the `i`-th columns). -/
lemma diag_entry_le_one (U W : Matrix (Fin n) (Fin m) K)
    (hU : (U)ᵀ * U = 1) (hW : (W)ᵀ * W = 1) (i : Fin m) :
    ((U)ᵀ * W) i i ≤ 1 := by
  have hcs := Finset.sum_mul_sq_le_sq_mul_sq Finset.univ
    (fun a => U a i) (fun a => W a i)
  rw [col_sq_sum_eq_one U hU i, col_sq_sum_eq_one W hW i, one_mul] at hcs
  have hz : ((U)ᵀ * W) i i = ∑ a, U a i * W a i := by
    simp [Matrix.mul_apply, Matrix.transpose_apply]
  rw [hz]
  nlinarith [hcs, sq_nonneg ((∑ a, U a i * W a i) - 1),
    sq_nonneg ((∑ a, U a i * W a i) + 1)]

/-- Von Neumann-type bound used in the Procrustes argument: with
`M = U · diag σ · Vh` a singular value decomposition, `U * Vh` maximizes the
Frobenius inner product with `M` over matrices with orthonormal columns. -/
lemma matInner_svd_le (M : Matrix (Fin n) (Fin m) K)
    (U : Matrix (Fin n) (Fin m) K) (σ : Fin m → K) (Vh : Matrix (Fin m) (Fin m) K)
    (hU : (U)ᵀ * U = 1) (hV : (Vh)ᵀ * Vh = 1) (hσ : ∀ i, 0 ≤ σ i)
    (hM : M = U * Matrix.diagonal σ * Vh)
    (Ω : Matrix (Fin n) (Fin m) K) (hΩ : (Ω)ᵀ * Ω = 1) :
    matInner M Ω ≤ matInner M (U * Vh) := by
  have hVV : Vh * (Vh)ᵀ = 1 := Matrix.mul_eq_one_comm.mp hV
  have key : ∀ Ψ : Matrix (Fin n) (Fin m) K,
      matInner M Ψ = ∑ i, σ i * ((U)ᵀ * (Ψ * (Vh)ᵀ)) i i := by
    intro Ψ
    rw [matInner_eq_trace, hM]
    have h1 : (U * Matrix.diagonal σ * Vh)ᵀ = (Vh)ᵀ * Matrix.diagonal σ * (U)ᵀ := by
      rw [Matrix.transpose_mul, Matrix.transpose_mul, Matrix.diagonal_transpose,
        Matrix.mul_assoc]
    rw [h1, Matrix.trace_mul_comm, ← Matrix.mul_assoc, ← Matrix.mul_assoc,
      Matrix.trace_mul_comm, ← Matrix.mul_assoc, ← Matrix.mul_assoc,
      Matrix.trace_mul_comm, trace_diagonal_mul]
  rw [key Ω, key (U * Vh)]
  have hZeq : (U)ᵀ * (U * Vh * (Vh)ᵀ) = 1 := by
    rw [Matrix.mul_assoc, hVV, Matrix.mul_one, hU]
  rw [hZeq]
  have hW : ((Ω * (Vh)ᵀ))ᵀ * (Ω * (Vh)ᵀ) = 1 := by
    rw [Matrix.transpose_mul, Matrix.transpose_transpose, Matrix.mul_assoc,
      ← Matrix.mul_assoc (Ω)ᵀ Ω ((Vh)ᵀ), hΩ, Matrix.one_mul, hVV]
  refine Finset.sum_le_sum ?_
  intro i _
  have hle := diag_entry_le_one U (Ω * (Vh)ᵀ) hU hW i
  have h1 : (1 : Matrix (Fin m) (Fin m) K) i i = 1 := Matrix.one_apply_eq i
  rw [h1]
  calc σ i * ((U)ᵀ * (Ω * (Vh)ᵀ)) i i ≤ σ i * 1 :=
        mul_le_mul_of_nonneg_left hle (hσ i)
    _ = σ i * 1 := rfl

/-- Orthogonal Procrustes: `U * Vh` from a singular value decomposition of
`C * Tᵀ` minimizes the squared Frobenius error `frobSq (C - Ω * T)` over all
`Ω` with orthonormal columns. -/
lemma procrustes_opt (C : Matrix (Fin a) (Fin b) K) (T : Matrix (Fin m) (Fin b) K)
    (res : SVDResult a m K) (hsvd : isSVD (C * (T)ᵀ) res)
    (Ω' : Matrix (Fin a) (Fin m) K) (hΩ' : (Ω')ᵀ * Ω' = 1) :
    frobSq (C - res.U * res.Vh * T) ≤ frobSq (C - Ω' * T) := by
  obtain ⟨hU, hV, hσ, hM⟩ := hsvd
  have hUV : (res.U * res.Vh)ᵀ * (res.U * res.Vh) = 1 := by
    rw [Matrix.transpose_mul, Matrix.mul_assoc,
      ← Matrix.mul_assoc (res.U)ᵀ res.U res.Vh, hU, Matrix.one_mul, hV]
  rw [frobSq_sub, frobSq_sub, frobSq_orth_mul _ _ hUV, frobSq_orth_mul _ _ hΩ',
    matInner_mul_right C (res.U * res.Vh) T, matInner_mul_right C Ω' T]
  have hle := matInner_svd_le (C * (T)ᵀ) res.U res.sv res.Vh hU hV hσ hM Ω' hΩ'
  linarith

end FrobeniusLemmas

section SplitLemmas

variable {n a b : ℕ}

lemma colsLeft_orth (Ω : Matrix (Fin n) (Fin (a + b)) K) (h : (Ω)ᵀ * Ω = 1) :
    (colsLeft Ω)ᵀ * colsLeft Ω = 1 := by
  have h' : ∀ u v, ((Ω)ᵀ * Ω) u v = (1 : Matrix (Fin (a + b)) (Fin (a + b)) K) u v :=
    fun u v => by rw [h]
  ext i j
  have hc := h' (Fin.castAdd b i) (Fin.castAdd b j)
  simp only [Matrix.mul_apply, Matrix.transpose_apply, Matrix.one_apply] at hc
  simp only [colsLeft, Matrix.mul_apply, Matrix.transpose_apply, Matrix.one_apply]
  rw [hc]
  simp [Fin.ext_iff]

lemma colsRight_orth (Ω : Matrix (Fin n) (Fin (a + b)) K) (h : (Ω)ᵀ * Ω = 1) :
    (colsRight Ω)ᵀ * colsRight Ω = 1 := by
  have h' : ∀ u v, ((Ω)ᵀ * Ω) u v = (1 : Matrix (Fin (a + b)) (Fin (a + b)) K) u v :=
    fun u v => by rw [h]
  ext i j
  have hc := h' (Fin.natAdd a i) (Fin.natAdd a j)
  simp only [Matrix.mul_apply, Matrix.transpose_apply, Matrix.one_apply] at hc
  simp only [colsRight, Matrix.mul_apply, Matrix.transpose_apply, Matrix.one_apply]
  rw [hc]
  simp [Fin.ext_iff]

lemma colsLeft_mul_colsRight (Ω : Matrix (Fin n) (Fin (a + b)) K)
    (h : (Ω)ᵀ * Ω = 1) : (colsLeft Ω)ᵀ * colsRight Ω = 0 := by
  have h' : ∀ u v, ((Ω)ᵀ * Ω) u v = (1 : Matrix (Fin (a + b)) (Fin (a + b)) K) u v :=
    fun u v => by rw [h]
  ext i j
  have hc := h' (Fin.castAdd b i) (Fin.natAdd a j)
  simp only [Matrix.mul_apply, Matrix.transpose_apply, Matrix.one_apply] at hc
  simp only [colsLeft, colsRight, Matrix.mul_apply, Matrix.transpose_apply,
    Matrix.zero_apply]
  rw [hc, if_neg]
  intro heq
  have hv := congrArg Fin.val heq
  simp only [Fin.coe_castAdd, Fin.coe_natAdd] at hv
  omega

/-- `Omega = Um @ Vm` has orthonormal columns whenever the SVD factors do. -/
lemma procOmega_orth {k r q p : ℕ}
    (svdO : Matrix (Fin n) (Fin (r + q)) K → SVDResult n (r + q) K)
    (S : Matrix (Fin n) (Fin k) K) (sref : Fin n → K)
    (s : MAMState n k r q p K)
    (hU : ((svdO (procInput S sref s)).U)ᵀ * (svdO (procInput S sref s)).U = 1)
    (hV : ((svdO (procInput S sref s)).Vh)ᵀ * (svdO (procInput S sref s)).Vh = 1) :
    (procOmega svdO S sref s)ᵀ * procOmega svdO S sref s = 1 := by
  unfold procOmega
  rw [Matrix.transpose_mul, Matrix.mul_assoc,
    ← Matrix.mul_assoc ((svdO (procInput S sref s)).U)ᵀ, hU, Matrix.one_mul, hV]

end SplitLemmas

/-- C1: in every outer iteration, step 1 forms the target `T = [Shat; Xi·Poly]`
((r+q) rows, k columns), takes the singular value decomposition
`U_m, _, V_m` of `CenteredData · Tᵀ`, sets `Omega = U_m · V_m`, and splits it
into `V` (first `r` columns) and `Vbar` (next `q` columns); this `Omega`
minimizes `‖CenteredData − Ω·T‖_F` over all matrices `Ω` with orthonormal
columns (stated with the squared Frobenius norm, whose minimizers coincide
with those of the norm), i.e. it is the orthogonal Procrustes solution for
the fixed target `T`. -/
theorem c1_stepA_procrustes {n k r q p : ℕ} (γ : K)
    (S : Matrix (Fin n) (Fin k) K) (sref : Fin n → K)
    (svdO : Matrix (Fin n) (Fin (r + q)) K → SVDResult n (r + q) K)
    (lsqO : ((Fin r → K) → (Fin n → K)) → (Fin r → K) → (Fin r → K))
    (s : MAMState n k r q p K)
    (hsvd : isSVD (procInput S sref s) (svdO (procInput S sref s))) :
    (mamStep γ S sref svdO lsqO s).Vr = colsLeft (procOmega svdO S sref s) ∧
    (mamStep γ S sref svdO lsqO s).Vbar = colsRight (procOmega svdO S sref s) ∧
    ∀ Ω' : Matrix (Fin n) (Fin (r + q)) K, (Ω')ᵀ * Ω' = 1 →
      frobSq ((S - srefMat k sref) - procOmega svdO S sref s * targetT s) ≤
        frobSq ((S - srefMat k sref) - Ω' * targetT s) := by
  refine ⟨rfl, rfl, ?_⟩
  intro Ω' hΩ'
  exact procrustes_opt (S - srefMat k sref) (targetT s)
    (svdO (procInput S sref s)) hsvd Ω' hΩ'

/-- C2: orthonormality invariant — after every outer iteration (in exact
arithmetic, assuming the SVD routine returns genuinely orthogonal factors),
the state satisfies `Vᵀ·V = I_r`, `Vbarᵀ·Vbar = I_q` and `Vᵀ·Vbar = 0`, i.e.
`(V, Vbar)` always forms an `n × (r+q)` block with orthonormal columns. -/
theorem c2_orthonormality_invariant {n k r q p : ℕ} (γ : K)
    (S : Matrix (Fin n) (Fin k) K) (sref : Fin n → K)
    (svdO : Matrix (Fin n) (Fin (r + q)) K → SVDResult n (r + q) K)
    (lsqO : ((Fin r → K) → (Fin n → K)) → (Fin r → K) → (Fin r → K))
    (hsvdO : ∀ A, ((svdO A).U)ᵀ * (svdO A).U = 1 ∧ ((svdO A).Vh)ᵀ * (svdO A).Vh = 1)
    (s0 : MAMState n k r q p K) (i : ℕ) (hi : 1 ≤ i) :
    (((mamStep γ S sref svdO lsqO)^[i] s0).Vr)ᵀ *
        ((mamStep γ S sref svdO lsqO)^[i] s0).Vr = 1 ∧
    (((mamStep γ S sref svdO lsqO)^[i] s0).Vbar)ᵀ *
        ((mamStep γ S sref svdO lsqO)^[i] s0).Vbar = 1 ∧
    (((mamStep γ S sref svdO lsqO)^[i] s0).Vr)ᵀ *
        ((mamStep γ S sref svdO lsqO)^[i] s0).Vbar = 0 := by
  obtain ⟨j, rfl⟩ : ∃ j, i = j + 1 := ⟨i - 1, by omega⟩
  simp only [Function.iterate_succ_apply']
  obtain ⟨hU, hV⟩ := hsvdO (procInput S sref ((mamStep γ S sref svdO lsqO)^[j] s0))
  have hΩ := procOmega_orth svdO S sref ((mamStep γ S sref svdO lsqO)^[j] s0) hU hV
  exact ⟨colsLeft_orth _ hΩ, colsRight_orth _ hΩ, colsLeft_mul_colsRight _ hΩ⟩

lemma transpose_one_mul_one {m : ℕ} : ((1 : Matrix (Fin m) (Fin m) K))ᵀ * 1 = 1 := by
  rw [Matrix.transpose_one, Matrix.one_mul]

lemma wit_centered_zero : Wit.S0 - srefMat 1 Wit.sref0 = 0 := by
  ext i j
  simp [Wit.S0, Wit.sref0, srefMat]

lemma wit_isSVD : isSVD (procInput Wit.S0 Wit.sref0 Wit.st0)
    (Wit.svdO0 (procInput Wit.S0 Wit.sref0 Wit.st0)) := by
  refine ⟨transpose_one_mul_one, transpose_one_mul_one, fun i => le_refl 0, ?_⟩
  show procInput Wit.S0 Wit.sref0 Wit.st0 =
    1 * Matrix.diagonal (fun _ => (0 : ℚ)) * 1
  rw [Matrix.one_mul, Matrix.mul_one]
  unfold procInput
  rw [wit_centered_zero, Matrix.zero_mul]
  exact Matrix.diagonal_zero.symm

/-- Witness for C1: the Procrustes optimality of step 1 instantiated at a
concrete rational input (comparing against the orthonormal candidate `1`). -/
theorem c1_stepA_procrustes_witness :
    frobSq ((Wit.S0 - srefMat 1 Wit.sref0) -
        procOmega Wit.svdO0 Wit.S0 Wit.sref0 Wit.st0 * targetT Wit.st0) ≤
      frobSq ((Wit.S0 - srefMat 1 Wit.sref0) -
        (1 : Matrix (Fin 1) (Fin (1 + 0)) ℚ) * targetT Wit.st0) :=
  (c1_stepA_procrustes 0 Wit.S0 Wit.sref0 Wit.svdO0 Wit.lsqO0 Wit.st0
    wit_isSVD).2.2 1 transpose_one_mul_one

/-- Witness for C2: the orthonormality invariant instantiated at a concrete
rational input after one outer iteration. -/
theorem c2_orthonormality_invariant_witness :
    (((mamStep (0 : ℚ) Wit.S0 Wit.sref0 Wit.svdO0 Wit.lsqO0)^[1] Wit.st0).Vr)ᵀ *
        ((mamStep (0 : ℚ) Wit.S0 Wit.sref0 Wit.svdO0 Wit.lsqO0)^[1] Wit.st0).Vr = 1 ∧
    (((mamStep (0 : ℚ) Wit.S0 Wit.sref0 Wit.svdO0 Wit.lsqO0)^[1] Wit.st0).Vbar)ᵀ *
        ((mamStep (0 : ℚ) Wit.S0 Wit.sref0 Wit.svdO0 Wit.lsqO0)^[1] Wit.st0).Vbar = 1 ∧
    (((mamStep (0 : ℚ) Wit.S0 Wit.sref0 Wit.svdO0 Wit.lsqO0)^[1] Wit.st0).Vr)ᵀ *
        ((mamStep (0 : ℚ) Wit.S0 Wit.sref0 Wit.svdO0 Wit.lsqO0)^[1] Wit.st0).Vbar = 0 :=
  c2_orthonormality_invariant 0 Wit.S0 Wit.sref0 Wit.svdO0 Wit.lsqO0
    (fun _ => ⟨transpose_one_mul_one, transpose_one_mul_one⟩) Wit.st0 1 (le_refl 1)

section LoopLemmas

variable {n k r q p : ℕ} (tol γ : K)
variable (S : Matrix (Fin n) (Fin k) K) (sref : Fin n → K)
variable (svdO : Matrix (Fin n) (Fin (r + q)) K → SVDResult n (r + q) K)
variable (lsqO : ((Fin r → K) → (Fin n → K)) → (Fin r → K) → (Fin r → K))
variable (s0 : MAMState n k r q p K)

lemma energySeq_succ (m : ℕ) :
    energySeq γ S sref svdO lsqO s0 (m + 1) =
      energyOf S sref (mamStep γ S sref svdO lsqO
        ((mamStep γ S sref svdO lsqO)^[m] s0)) := by
  show energyOf S sref ((mamStep γ S sref svdO lsqO)^[m + 1] s0) = _
  rw [Function.iterate_succ_apply']

lemma energyDiff_succ_eq (m : ℕ) :
    energyDiff γ S sref svdO lsqO s0 (m + 1) =
      |energySeq γ S sref svdO lsqO s0 (m + 1) -
        energySeq γ S sref svdO lsqO s0 m| := by
  simp [energyDiff]

lemma loopRes_succ (fuel m : ℕ) :
    loopRes tol γ S sref svdO lsqO s0 (fuel + 1) m =
      if energyDiff γ S sref svdO lsqO s0 (m + 1) < tol then
        ⟨(mamStep γ S sref svdO lsqO)^[m + 1] s0, true, m + 1⟩
      else loopRes tol γ S sref svdO lsqO s0 fuel (m + 1) := by
  have hs : (mamStep γ S sref svdO lsqO)^[m + 1] s0 =
      mamStep γ S sref svdO lsqO ((mamStep γ S sref svdO lsqO)^[m] s0) :=
    Function.iterate_succ_apply' _ _ _
  simp only [loopRes, mamLoopAux, energyDiff_succ_eq, energySeq_succ, hs]

lemma loopRes_spec (fuel : ℕ) : ∀ m : ℕ,
    ((loopRes tol γ S sref svdO lsqO s0 fuel m).iters ≤ m + fuel) ∧
    ((loopRes tol γ S sref svdO lsqO s0 fuel m).converged = true →
      m < (loopRes tol γ S sref svdO lsqO s0 fuel m).iters ∧
      energyDiff γ S sref svdO lsqO s0
        (loopRes tol γ S sref svdO lsqO s0 fuel m).iters < tol ∧
      (∀ j, m < j → j < (loopRes tol γ S sref svdO lsqO s0 fuel m).iters →
        ¬ energyDiff γ S sref svdO lsqO s0 j < tol) ∧
      (loopRes tol γ S sref svdO lsqO s0 fuel m).state =
        (mamStep γ S sref svdO lsqO)^[(loopRes tol γ S sref svdO lsqO s0 fuel m).iters] s0) ∧
    ((loopRes tol γ S sref svdO lsqO s0 fuel m).converged = false →
      (loopRes tol γ S sref svdO lsqO s0 fuel m).iters = m + fuel ∧
      (loopRes tol γ S sref svdO lsqO s0 fuel m).state =
        (mamStep γ S sref svdO lsqO)^[m + fuel] s0 ∧
      ∀ j, m < j → j ≤ m + fuel → ¬ energyDiff γ S sref svdO lsqO s0 j < tol) := by
  induction fuel with
  | zero =>
    intro m
    refine ⟨by simp [loopRes, mamLoopAux], ?_, ?_⟩
    · intro h
      simp [loopRes, mamLoopAux] at h
    · intro _
      refine ⟨by simp [loopRes, mamLoopAux], by simp [loopRes, mamLoopAux], ?_⟩
      intro j hj1 hj2
      omega
  | succ fuel ih =>
    intro m
    rw [loopRes_succ]
    by_cases hc : energyDiff γ S sref svdO lsqO s0 (m + 1) < tol
    · rw [if_pos hc]
      dsimp only
      refine ⟨by omega, ?_, ?_⟩
      · intro _
        exact ⟨by omega, hc, fun j hj1 hj2 => absurd hj1 (by omega), rfl⟩
      · intro hfalse
        simp at hfalse
    · rw [if_neg hc]
      obtain ⟨ih1, ih2, ih3⟩ := ih (m + 1)
      refine ⟨by omega, ?_, ?_⟩
      · intro hconv
        obtain ⟨ha, hb, hcj, hd⟩ := ih2 hconv
        refine ⟨by omega, hb, ?_, hd⟩
        intro j hj1 hj2
        by_cases hj : j = m + 1
        · subst hj; exact hc
        · exact hcj j (by omega) hj2
      · intro hnc
        obtain ⟨ha, hb, hcj⟩ := ih3 hnc
        refine ⟨by omega, ?_, ?_⟩
        · have heq : m + 1 + fuel = m + (fuel + 1) := by omega
          rw [← heq]
          exact hb
        · intro j hj1 hj2
          by_cases hj : j = m + 1
          · subst hj; exact hc
          · exact hcj j (by omega) (by omega)

lemma mamLoopAux_iters_ge (fuel : ℕ) :
    ∀ (nrg : K) (done : ℕ) (s : MAMState n k r q p K),
      done ≤ (mamLoopAux tol γ S sref svdO lsqO fuel nrg done s).iters := by
  induction fuel with
  | zero =>
    intro nrg done s
    simp [mamLoopAux]
  | succ fuel ih =>
    intro nrg done s
    simp only [mamLoopAux]
    split
    · dsimp only
      omega
    · exact le_trans (by omega) (ih _ _ _)

lemma mamLoopAux_iters_succ_ge (fuel : ℕ) (hf : 1 ≤ fuel) (nrg : K) (done : ℕ)
    (s : MAMState n k r q p K) :
    done + 1 ≤ (mamLoopAux tol γ S sref svdO lsqO fuel nrg done s).iters := by
  obtain ⟨f, rfl⟩ : ∃ f, fuel = f + 1 := ⟨fuel - 1, by omega⟩
  simp only [mamLoopAux]
  split
  · dsimp only
    omega
  · exact mamLoopAux_iters_ge tol γ S sref svdO lsqO f _ (done + 1) _

end LoopLemmas

/-- C3: the outer loop executes at most `max_iter` iterations, and it stops
reporting convergence exactly when `abs(energy - nrg_old) < tol` at the end
of an iteration — the first such iteration — where `energy` is
`‖V·Shat + Vbar·Xi·Poly‖_F² / ‖CenteredData‖_F²` (the quantity `energySeq`
computes) and `nrg_old` is the energy stored at the end of the previous
iteration. -/
theorem c3_convergence_termination {n k r q p : ℕ} (tol γ : K)
    (S : Matrix (Fin n) (Fin k) K) (sref : Fin n → K)
    (svdO : Matrix (Fin n) (Fin (r + q)) K → SVDResult n (r + q) K)
    (lsqO : ((Fin r → K) → (Fin n → K)) → (Fin r → K) → (Fin r → K))
    (max_iter : ℕ) (s0 : MAMState n k r q p K) :
    (mamLoop tol γ S sref svdO lsqO max_iter s0).iters ≤ max_iter ∧
    ((mamLoop tol γ S sref svdO lsqO max_iter s0).converged = true ↔
      ∃ i, 1 ≤ i ∧ i ≤ max_iter ∧ energyDiff γ S sref svdO lsqO s0 i < tol) ∧
    ((mamLoop tol γ S sref svdO lsqO max_iter s0).converged = true →
      energyDiff γ S sref svdO lsqO s0
        (mamLoop tol γ S sref svdO lsqO max_iter s0).iters < tol ∧
      ∀ j, 1 ≤ j → j < (mamLoop tol γ S sref svdO lsqO max_iter s0).iters →
        ¬ energyDiff γ S sref svdO lsqO s0 j < tol) := by
  have hEq : mamLoop tol γ S sref svdO lsqO max_iter s0 =
      loopRes tol γ S sref svdO lsqO s0 max_iter 0 := rfl
  obtain ⟨h1, h2, h3⟩ := loopRes_spec tol γ S sref svdO lsqO s0 max_iter 0
  rw [hEq]
  refine ⟨by omega, ?_, ?_⟩
  · constructor
    · intro hconv
      obtain ⟨ha, hb, _, _⟩ := h2 hconv
      exact ⟨(loopRes tol γ S sref svdO lsqO s0 max_iter 0).iters,
        by omega, by omega, hb⟩
    · rintro ⟨i, hi1, hi2, hid⟩
      by_contra hnc
      rw [Bool.not_eq_true] at hnc
      obtain ⟨_, _, hall⟩ := h3 hnc
      exact hall i (by omega) (by omega) hid
  · intro hconv
    obtain ⟨ha, hb, hcj, _⟩ := h2 hconv
    exact ⟨hb, fun j hj1 hj2 => hcj j (by omega) hj2⟩

/-- C6: when the iteration budget is exhausted without the convergence
criterion ever firing, the loop stops after exactly `max_iter` iterations
and yields the current state together with the non-converged status
(`converged = false`, i.e. the loop left without the `break` and without
printing the convergence message), rather than raising an exception. -/
theorem c6_budget_exhausted {n k r q p : ℕ} (tol γ : K)
    (S : Matrix (Fin n) (Fin k) K) (sref : Fin n → K)
    (svdO : Matrix (Fin n) (Fin (r + q)) K → SVDResult n (r + q) K)
    (lsqO : ((Fin r → K) → (Fin n → K)) → (Fin r → K) → (Fin r → K))
    (max_iter : ℕ) (s0 : MAMState n k r q p K)
    (hnoconv : ∀ i, 1 ≤ i → i ≤ max_iter →
      ¬ energyDiff γ S sref svdO lsqO s0 i < tol) :
    (mamLoop tol γ S sref svdO lsqO max_iter s0).converged = false ∧
    (mamLoop tol γ S sref svdO lsqO max_iter s0).iters = max_iter ∧
    (mamLoop tol γ S sref svdO lsqO max_iter s0).state =
      (mamStep γ S sref svdO lsqO)^[max_iter] s0 := by
  have hEq : mamLoop tol γ S sref svdO lsqO max_iter s0 =
      loopRes tol γ S sref svdO lsqO s0 max_iter 0 := rfl
  obtain ⟨h1, h2, h3⟩ := loopRes_spec tol γ S sref svdO lsqO s0 max_iter 0
  rw [hEq]
  have hfalse : (loopRes tol γ S sref svdO lsqO s0 max_iter 0).converged = false := by
    cases hcv : (loopRes tol γ S sref svdO lsqO s0 max_iter 0).converged
    · rfl
    · obtain ⟨ha, hb, _, _⟩ := h2 hcv
      exact absurd hb (hnoconv _ (by omega) (by omega))
  obtain ⟨ha, hb, _⟩ := h3 hfalse
  rw [Nat.zero_add] at ha hb
  exact ⟨hfalse, ha, hb⟩

/-- C10: the previous-energy tracker starts at `0`, so whenever the
first-iteration energy is itself within `tol` of `0` the loop reports
convergence after exactly one outer iteration — the convergence test of
iteration 1 compares the energy against `0`, not against an energy actually
measured in a previous iteration. -/
theorem c10_first_iteration_convergence {n k r q p : ℕ} (tol γ : K)
    (S : Matrix (Fin n) (Fin k) K) (sref : Fin n → K)
    (svdO : Matrix (Fin n) (Fin (r + q)) K → SVDResult n (r + q) K)
    (lsqO : ((Fin r → K) → (Fin n → K)) → (Fin r → K) → (Fin r → K))
    (max_iter : ℕ) (s0 : MAMState n k r q p K) (hmax : 1 ≤ max_iter)
    (h1 : |energySeq γ S sref svdO lsqO s0 1 - 0| < tol) :
    (mamLoop tol γ S sref svdO lsqO max_iter s0).converged = true ∧
    (mamLoop tol γ S sref svdO lsqO max_iter s0).iters = 1 := by
  have hD : energyDiff γ S sref svdO lsqO s0 1 < tol := by
    simpa [energyDiff, energySeq] using h1
  have hEq : mamLoop tol γ S sref svdO lsqO max_iter s0 =
      loopRes tol γ S sref svdO lsqO s0 max_iter 0 := rfl
  obtain ⟨hle, h2, h3⟩ := loopRes_spec tol γ S sref svdO lsqO s0 max_iter 0
  rw [hEq]
  have hconv : (loopRes tol γ S sref svdO lsqO s0 max_iter 0).converged = true := by
    cases hcv : (loopRes tol γ S sref svdO lsqO s0 max_iter 0).converged
    · obtain ⟨_, _, hall⟩ := h3 hcv
      exact absurd hD (hall 1 (by omega) (by omega))
    · rfl
  obtain ⟨ha, hb, hcj, _⟩ := h2 hconv
  refine ⟨hconv, ?_⟩
  by_contra hne
  exact hcj 1 (by omega) (by omega) hD

/-- Witness for C6: with `tol = 0` the criterion can never fire, so the
budget of one iteration is exhausted and the loop returns the current state
with the non-converged status. -/
theorem c6_budget_exhausted_witness :
    (mamLoop (0 : ℚ) 0 Wit.S0 Wit.sref0 Wit.svdO0 Wit.lsqO0 1 Wit.st0).converged = false ∧
    (mamLoop (0 : ℚ) 0 Wit.S0 Wit.sref0 Wit.svdO0 Wit.lsqO0 1 Wit.st0).iters = 1 ∧
    (mamLoop (0 : ℚ) 0 Wit.S0 Wit.sref0 Wit.svdO0 Wit.lsqO0 1 Wit.st0).state =
      (mamStep (0 : ℚ) Wit.S0 Wit.sref0 Wit.svdO0 Wit.lsqO0)^[1] Wit.st0 :=
  c6_budget_exhausted 0 0 Wit.S0 Wit.sref0 Wit.svdO0 Wit.lsqO0 1 Wit.st0
    (fun _ _ _ => not_lt.mpr (abs_nonneg _))

lemma wit_energySeq_one :
    energySeq (0 : ℚ) Wit.S0 Wit.sref0 Wit.svdO0 Wit.lsqO0 Wit.st0 1 = 0 := by
  show energyOf Wit.S0 Wit.sref0
    ((mamStep (0 : ℚ) Wit.S0 Wit.sref0 Wit.svdO0 Wit.lsqO0)^[1] Wit.st0) = 0
  unfold energyOf
  rw [wit_centered_zero]
  have h0 : frobSq (0 : Matrix (Fin 1) (Fin 1) ℚ) = 0 := by simp [frobSq]
  rw [h0, div_zero]

/-- Witness for C10: a concrete input whose first-iteration energy is `0`,
within `tol = 1` of the initial tracker value `0`, so the loop converges
after exactly one iteration. -/
theorem c10_first_iteration_convergence_witness :
    (mamLoop (1 : ℚ) 0 Wit.S0 Wit.sref0 Wit.svdO0 Wit.lsqO0 5 Wit.st0).converged = true ∧
    (mamLoop (1 : ℚ) 0 Wit.S0 Wit.sref0 Wit.svdO0 Wit.lsqO0 5 Wit.st0).iters = 1 :=
  c10_first_iteration_convergence 1 0 Wit.S0 Wit.sref0 Wit.svdO0 Wit.lsqO0 5 Wit.st0
    (by omega) (by rw [wit_energySeq_one]; norm_num)

lemma det_eq_single_entry {m : ℕ} (h : m = 1) (A : Matrix (Fin m) (Fin m) K) :
    A.det = A ⟨0, by omega⟩ ⟨0, by omega⟩ := by
  subst h
  exact Matrix.det_fin_one A

/-- At the C7 instance (`γ = 1`, `Poly = [[1]]`), the step-2 ridge matrix is
`[[2]]`, nonsingular: the real `np.linalg.inv` succeeds on it, so the first
iteration of the real code involves no error path at all. -/
lemma wit_ridge_det :
    ((Wit.st7.Poly) * (Wit.st7.Poly)ᵀ +
      (1 : ℚ) • (1 : Matrix (Fin ((2 - 1) * 1)) (Fin ((2 - 1) * 1)) ℚ)).det ≠ 0 := by
  rw [det_eq_single_entry (by norm_num)]
  simp [Wit.st7, Matrix.mul_apply, Matrix.add_apply, Matrix.smul_apply,
    Matrix.one_apply, Matrix.transpose_apply]

/-- C7 (amended): the code performs no degenerate-input check: even when
`k ≤ r + q` (too few samples for the bases to be well-determined), the
outer loop is entered and — provided the first iteration's ridge matrix
`Poly·Polyᵀ + γ·I` is nonsingular, so that `np.linalg.inv` succeeds — it
executes at least one full iteration whenever `max_iter ≥ 1`.  Degenerate
input is processed silently rather than being propagated as a precondition
violation before any iteration; any failure on degenerate input can only
surface as a numerical error inside an iteration (a `LinAlgError` from the
ridge solve when that matrix is singular), never as an upfront check. -/
theorem c7_amended_no_degenerate_check {n k r q p : ℕ} (tol γ : K)
    (S : Matrix (Fin n) (Fin k) K) (sref : Fin n → K)
    (svdO : Matrix (Fin n) (Fin (r + q)) K → SVDResult n (r + q) K)
    (lsqO : ((Fin r → K) → (Fin n → K)) → (Fin r → K) → (Fin r → K))
    (max_iter : ℕ) (s0 : MAMState n k r q p K)
    (hdeg : k ≤ r + q) (hmax : 1 ≤ max_iter)
    (hdet : ((s0.Poly) * (s0.Poly)ᵀ +
      γ • (1 : Matrix (Fin ((p - 1) * r)) (Fin ((p - 1) * r)) K)).det ≠ 0) :
    1 ≤ (mamLoop tol γ S sref svdO lsqO max_iter s0).iters :=
  mamLoopAux_iters_succ_ge tol γ S sref svdO lsqO max_iter hmax 0 0 s0

/-- C7 counterexample: a degenerate concrete input (`k = 1 ≤ r + q = 1 + 0`,
data `[[1]]`, reference `0`, consistent state with `Poly = [[1]]`, ridge
weight `γ = 1`) is not rejected before the loop.  The second conjunct
verifies the step-2 ridge matrix is nonsingular, so the real code's
`np.linalg.inv` succeeds and iteration 1 runs to completion there (the
SVD of the 1×1 matrix `[[1]]` is `U = Vh = [[1]]` — exactly what the
oracle returns — and the per-sample solve's minimizer equals its initial
value); the learner thus executes its outer iteration (`iters = 1`)
instead of detecting and propagating a precondition violation before the
first iteration starts. -/
theorem c7_counterexample :
    (1 : ℕ) ≤ 1 + 0 ∧
    ((Wit.st7.Poly) * (Wit.st7.Poly)ᵀ +
      (1 : ℚ) • (1 : Matrix (Fin ((2 - 1) * 1)) (Fin ((2 - 1) * 1)) ℚ)).det ≠ 0 ∧
    (mamLoop (0 : ℚ) 1 Wit.S7 Wit.sref7 Wit.svdO0 Wit.lsqO0 1 Wit.st7).iters = 1 := by
  refine ⟨le_refl 1, wit_ridge_det, le_antisymm ?_ ?_⟩
  · exact (loopRes_spec (0 : ℚ) 1 Wit.S7 Wit.sref7 Wit.svdO0 Wit.lsqO0 Wit.st7 1 0).1
  · exact mamLoopAux_iters_succ_ge (0 : ℚ) 1 Wit.S7 Wit.sref7 Wit.svdO0 Wit.lsqO0 1
      (le_refl 1) 0 0 Wit.st7

/-- Witness for C7's amended statement at the same degenerate concrete
input with the nonsingularity hypothesis discharged (`det [[2]] = 2 ≠ 0`). -/
theorem c7_amended_no_degenerate_check_witness :
    1 ≤ (mamLoop (0 : ℚ) 1 Wit.S7 Wit.sref7 Wit.svdO0 Wit.lsqO0 1 Wit.st7).iters :=
  c7_amended_no_degenerate_check 0 1 Wit.S7 Wit.sref7 Wit.svdO0 Wit.lsqO0 1 Wit.st7
    (le_refl 1) (le_refl 1) wit_ridge_det

/-- C4: the one-shot nonlinear fit and step 2 of the alternating loop
compute the coefficient matrix by one and the same closed-form ridge
normal-equations formula
`Xi = Vbarᵀ·(CenteredData − V·Shat)·Polyᵀ·(Poly·Polyᵀ + γ·I)⁻¹` with `I` of
dimension `(p−1)·r` and no iteration: the one-shot fit instantiates it at
`Poly = polyMatrix p Shat`, and step 2 instantiates it at the loop's
current `Poly` with the just-updated bases. -/
theorem c4_same_closed_form {n k r q p : ℕ} (γ : K)
    (S : Matrix (Fin n) (Fin k) K) (sref : Fin n → K)
    (Vr : Matrix (Fin n) (Fin r) K) (Vbar : Matrix (Fin n) (Fin q) K)
    (Shat : Matrix (Fin r) (Fin k) K)
    (svdO : Matrix (Fin n) (Fin (r + q)) K → SVDResult n (r + q) K)
    (lsqO : ((Fin r → K) → (Fin n → K)) → (Fin r → K) → (Fin r → K))
    (s : MAMState n k r q p K) :
    closedFormXi p γ S sref Vr Vbar Shat =
      stepBXi p γ S sref Vr Vbar Shat (polyMatrix p Shat) ∧
    (mamStep γ S sref svdO lsqO s).Xi =
      stepBXi p γ S sref (mamStep γ S sref svdO lsqO s).Vr
        (mamStep γ S sref svdO lsqO s).Vbar s.Shat s.Poly :=
  ⟨rfl, rfl⟩

/-- C5: within one outer iteration, step 2 computes its projection error
from the just-updated basis `V` while `Shat` still holds the previous
iteration's values and `Poly` is still the one computed from the previous
`Shat`; step 3's per-sample solves run against the snapshot of the new
`(V, Vbar, Xi)` initialized at the old `Shat` columns; and the output
`Poly` is recomputed from the new `Shat` only after all per-sample solves. -/
theorem c5_iteration_data_flow {n k r q p : ℕ} (γ : K)
    (S : Matrix (Fin n) (Fin k) K) (sref : Fin n → K)
    (svdO : Matrix (Fin n) (Fin (r + q)) K → SVDResult n (r + q) K)
    (lsqO : ((Fin r → K) → (Fin n → K)) → (Fin r → K) → (Fin r → K))
    (s : MAMState n k r q p K) :
    (mamStep γ S sref svdO lsqO s).Xi =
      stepBXi p γ S sref (colsLeft (procOmega svdO S sref s))
        (colsRight (procOmega svdO S sref s)) s.Shat s.Poly ∧
    (∀ (i : Fin r) (j : Fin k), (mamStep γ S sref svdO lsqO s).Shat i j =
      lsqO (representation_learning_obj p S sref
          (mamStep γ S sref svdO lsqO s).Vr (mamStep γ S sref svdO lsqO s).Vbar
          (mamStep γ S sref svdO lsqO s).Xi j)
        (fun a => s.Shat a j) i) ∧
    (mamStep γ S sref svdO lsqO s).Poly =
      polyMatrix p (mamStep γ S sref svdO lsqO s).Shat :=
  ⟨rfl, fun _ _ => rfl, rfl⟩

/-- C8: the polynomial expansion is the vertical stack, for degrees
`d = 2..p` in increasing order, of the elementwise `d`-th power of the
reduced-coordinate matrix: row block `d − 2` at row `i`, column `j` holds
`x i j ^ d`.  The result is an `((p−1)·r) × k` matrix (by its type), and
being a function of the embedding it is deterministic and side-effect
free. -/
theorem c8_polynomial_expansion {r k : ℕ} (p : ℕ)
    (x : Matrix (Fin r) (Fin k) K) (hp : 2 ≤ p) (d i : ℕ) (j : Fin k)
    (hd : 2 ≤ d) (hdp : d ≤ p) (hi : i < r)
    (hidx : (d - 2) * r + i < (p - 1) * r) :
    polyMatrix p x ⟨(d - 2) * r + i, hidx⟩ j = x ⟨i, hi⟩ j ^ d := by
  have hr : 0 < r := by omega
  show vstackBlocks (polynomial_form p x) ⟨(d - 2) * r + i, hidx⟩ j = _
  simp only [vstackBlocks, polynomial_form]
  have hcomm : (d - 2) * r + i = i + (d - 2) * r := by omega
  have hmod : ((d - 2) * r + i) % r = i := by
    rw [hcomm, Nat.add_mul_mod_self_right, Nat.mod_eq_of_lt hi]
  have hdiv : ((d - 2) * r + i) / r = d - 2 := by
    rw [hcomm, Nat.add_mul_div_right _ _ hr, Nat.div_eq_of_lt hi, Nat.zero_add]
  simp only [hmod, hdiv]
  rw [Nat.sub_add_cancel hd]

/-- Witness for C8: at `p = 3`, `r = k = 1` and the constant matrix `2`,
the degree-3 block holds `2 ^ 3`. -/
theorem c8_polynomial_expansion_witness :
    polyMatrix 3 Wit.x8 ⟨(3 - 2) * 1 + 0, by omega⟩ (0 : Fin 1) =
      Wit.x8 ⟨0, by omega⟩ (0 : Fin 1) ^ 3 :=
  c8_polynomial_expansion 3 Wit.x8 (by omega) 3 0 (0 : Fin 1) (by omega) (by omega)
    (by omega) (by omega)

/-- C9: the POD reconstruction `Sref + V·(Vᵀ·CenteredData)` is invariant
under flipping the signs of any columns of `V`: the flip cancels jointly
between `V` and the reduced coordinates `Vᵀ·CenteredData`, so the
reconstruction matrix is identical for every sign choice. -/
theorem c9_pod_sign_invariance {n k r : ℕ} (S : Matrix (Fin n) (Fin k) K)
    (sref : Fin n → K) (Vr : Matrix (Fin n) (Fin r) K) (ε : Fin r → K)
    (hε : ∀ j, ε j = 1 ∨ ε j = -1) :
    gammaPOD S sref (colFlip Vr ε) = gammaPOD S sref Vr := by
  ext i j
  simp only [gammaPOD, colFlip, Matrix.add_apply, Matrix.mul_apply,
    Matrix.transpose_apply, Matrix.sub_apply, srefMat]
  congr 1
  refine Finset.sum_congr rfl ?_
  intro a _
  have hsq : ε a * ε a = 1 := by
    rcases hε a with h | h <;> rw [h] <;> norm_num
  rw [Finset.mul_sum, Finset.mul_sum]
  refine Finset.sum_congr rfl ?_
  intro b _
  linear_combination Vr i a * Vr b a * (S b j - sref b) * hsq

/-- Witness for C9 at a concrete flip by `-1` of a concrete basis column. -/
theorem c9_pod_sign_invariance_witness :
    gammaPOD Wit.S0 Wit.sref0 (colFlip Wit.V9 Wit.eps9) =
      gammaPOD Wit.S0 Wit.sref0 Wit.V9 :=
  c9_pod_sign_invariance Wit.S0 Wit.sref0 Wit.V9 Wit.eps9 (fun _ => Or.inr rfl)

end NLManifolds
